import Mathlib

/-!
# Verification of the core of `app-final.py`

This file embeds the two core functions of the repository — the recursive
tree-depth computation `get_tree_depth` (lines 18-36) and the tree-to-graph
flattener `get_agraph_data` (lines 39-70) — together with the match-score
computation of the main interface (lines 107-110), and settles the testable
properties stated in the specification.

Modelling conventions:
* A Python dict node is modelled by `LogicNode`; an absent key is the `none`
  alternative of an option, and `node.get(k, d)` becomes a `getD`.
  To keep every definition structurally recursive (hence evaluable by the
  kernel), the nested type `Option (List LogicNode)` of the `children` field
  is unfolded into the mutually inductive copies `OptChildren` (of
  `Option (List LogicNode)`) and `ChildList` (of `List LogicNode`);
  `ChildList.toList` recovers the ordinary list view.
* `get_agraph_data` mutates its two caller-supplied list arguments in place;
  the embedding threads the two lists explicitly and returns their final
  values as a pair.
* Python truthiness of `parent_id` (both `None` and `""` are falsy) is
  modelled exactly.
* The Python `for` loops become the explicit tail-recursive loop functions
  `depth_loop` and `agraph_loop`, carrying the loop state as arguments.
-/

mutual
/-- A node of the logic tree returned by the parsing service (a JSON
object).  The four fields model the dict keys `type`, `relation`, `text`
and `children`; `none` (of `Option String` / of `OptChildren`) models an
absent key. -/
inductive LogicNode : Type where
  | mk (ty rel tx : Option String) (children : OptChildren) : LogicNode

/-- `Option (List LogicNode)`, unfolded to keep the inductive family
non-nested: the value of the `children` key, or `none` when absent. -/
inductive OptChildren : Type where
  | none : OptChildren
  | some (l : ChildList) : OptChildren

/-- `List LogicNode`, unfolded to keep the inductive family non-nested:
the ordered sequence of child nodes. -/
inductive ChildList : Type where
  | nil : ChildList
  | cons (child : LogicNode) (rest : ChildList) : ChildList
end

/-- The `type` key of the node (`node.get("type")`). -/
def LogicNode.type : LogicNode → Option String
  | .mk ty _ _ _ => ty

/-- The `relation` key of the node. -/
def LogicNode.relation : LogicNode → Option String
  | .mk _ rel _ _ => rel

/-- The `text` key of the node. -/
def LogicNode.text : LogicNode → Option String
  | .mk _ _ tx _ => tx

/-- The `children` key of the node. -/
def LogicNode.children : LogicNode → OptChildren
  | .mk _ _ _ ch => ch

/-- `Option.getD` for the unfolded option of a child list. -/
def OptChildren.getD : OptChildren → ChildList → ChildList
  | .none, d => d
  | .some l, _ => l

/-- `node.get("children", [])`: the children sequence, defaulting to empty
when the key is absent. -/
def LogicNode.childrenD (n : LogicNode) : ChildList :=
  n.children.getD .nil

/-- `List.isEmpty` for the unfolded child list (Python `not children`). -/
def ChildList.isEmpty : ChildList → Bool
  | .nil => true
  | .cons _ _ => false

/-- The ordinary-list view of a `ChildList`. -/
def ChildList.toList : ChildList → List LogicNode
  | .nil => []
  | .cons c rest => c :: rest.toList

/-- Build a `ChildList` from an ordinary list (inverse of `toList`). -/
def ChildList.ofList : List LogicNode → ChildList
  | [] => .nil
  | c :: rest => .cons c (ofList rest)

mutual
/-- Embeds `get_tree_depth` (src/app-final.py lines 18-36): a node whose
`type` key equals `"leaf"` has depth 1; otherwise, with the children
defaulted to the empty sequence, an empty children sequence gives depth 1
and a non-empty one gives 1 plus the running maximum of the children's
depths computed by the `for` loop (`depth_loop`). -/
def get_tree_depth : LogicNode → Nat
  | .mk ty _ _ ch =>
    if ty = some "leaf" then 1
    else
      match ch with
      | .none => 1
      | .some children =>
        if children.isEmpty then 1
        else 1 + depth_loop 0 children

/-- The `for child in children` loop of `get_tree_depth`, carrying the
running maximum `max_child_depth` (initially 0). -/
def depth_loop (max_child_depth : Nat) : ChildList → Nat
  | .nil => max_child_depth
  | .cons child rest =>
    let depth := get_tree_depth child
    depth_loop (if depth > max_child_depth then depth else max_child_depth) rest
end

/-- A node of the rendered graph: the keyword arguments of the
`streamlit_agraph` `Node` constructor used at line 58. -/
structure VisualNode : Type where
  id : String
  label : String
  size : Nat
  color : String
  title : String
deriving DecidableEq, Repr

/-- An edge of the rendered graph: the keyword arguments of the
`streamlit_agraph` `Edge` constructor used at line 63. -/
structure VisualEdge : Type where
  source : String
  target : String
  color : String
deriving DecidableEq, Repr

/-- Embeds Python `str.upper()`: upper-case every character (the relation
labels produced by the parsing service are ASCII, where `Char.toUpper`
agrees with Python's upper-casing). -/
def py_upper (s : String) : String :=
  ⟨s.data.map Char.toUpper⟩

/-- The node-styling block of `get_agraph_data` (src/app-final.py lines
44-59): the `relation`/`node_type`/`full_text` defaulting, the leaf versus
internal branch, and the keyword arguments of the emitted `Node`. -/
def style_node (ty rel tx : Option String) (my_unique_id : String) : VisualNode :=
  let relation := py_upper (rel.getD "span")
  let node_type := ty.getD "span"
  if node_type = "leaf" then
    let full_text := tx.getD ""
    { id := my_unique_id
      label := if full_text.length > 15 then full_text.take 15 ++ "..." else full_text
      size := 25
      color := "#00C853"
      title := tx.getD relation }
  else
    { id := my_unique_id
      label := relation
      size := 15
      color := "#2962FF"
      title := tx.getD relation }

/-- The conditional edge emission of `get_agraph_data` (src/app-final.py
lines 62-63), as the list of edges appended: `if parent_id:` is Python
truthiness, so `None` and the empty string emit nothing and any other
parent id emits the single edge parent → this node. -/
def parent_edges : Option String → String → List VisualEdge
  | Option.none, _ => []
  | Option.some pid, target =>
    if pid = "" then []
    else [{ source := pid, target := target, color := "#B0BEC5" }]

mutual
/-- Embeds `get_agraph_data` (src/app-final.py lines 39-70).  The Python
function mutates `nodes_list` and `edges_list`; here the two lists are
threaded and the final pair is returned.  Defaults of the source:
`parent_id=None`, `my_id_suffix="0"`. -/
def get_agraph_data : LogicNode → List VisualNode → List VisualEdge →
    String → Option String → String → List VisualNode × List VisualEdge
  | .mk ty rel tx ch, nodes_list, edges_list, pfx, parent_id, my_id_suffix =>
    let my_unique_id := pfx ++ "_" ++ my_id_suffix
    let nodes_list := nodes_list ++ [style_node ty rel tx my_unique_id]
    let edges_list := edges_list ++ parent_edges parent_id my_unique_id
    match ch with
    | .none => (nodes_list, edges_list)
    | .some children =>
      agraph_loop children 0 nodes_list edges_list pfx my_unique_id my_id_suffix

/-- The `for index, child in enumerate(children)` loop of
`get_agraph_data`: `index` starts at 0, each child is flattened with parent
id `my_unique_id` and suffix `my_id_suffix ++ "_" ++ index`. -/
def agraph_loop : ChildList → Nat → List VisualNode → List VisualEdge →
    String → String → String → List VisualNode × List VisualEdge
  | .nil, _, nodes_list, edges_list, _, _, _ => (nodes_list, edges_list)
  | .cons child rest, index, nodes_list, edges_list, pfx, my_unique_id, my_id_suffix =>
    let child_suffix := my_id_suffix ++ "_" ++ Nat.repr index
    let st := get_agraph_data child nodes_list edges_list pfx (Option.some my_unique_id) child_suffix
    agraph_loop rest (index + 1) st.1 st.2 pfx my_unique_id my_id_suffix
end

/-- Embeds the match-score computation of the main interface
(src/app-final.py lines 107-110), in exact arithmetic: Python computes
`int((depth_comp / depth_ref) * 100)` with IEEE-754 doubles and `int`
truncates toward zero, which on a nonnegative real is the floor; the exact
counterpart of the truncated ratio is `depth_comp * 100 / depth_ref` in
natural-number division.  (The float rounding of the source can deviate
from this exact value; see the development notes on the ratio claim.) -/
def match_score (depth_comp depth_ref : Nat) : Nat :=
  if depth_ref > 0 then min 100 (depth_comp * 100 / depth_ref) else 0

mutual
/-- Specification-level node count of a tree (children defaulted to empty
when the key is absent), used to state the one-visual-node-per-tree-node
properties. -/
def LogicNode.nodeCount : LogicNode → Nat
  | .mk _ _ _ .none => 1
  | .mk _ _ _ (.some children) => 1 + children.nodeCount

/-- Total node count of a sequence of trees. -/
def ChildList.nodeCount : ChildList → Nat
  | .nil => 0
  | .cons c rest => c.nodeCount + rest.nodeCount
end

mutual
/-- Specification-level list of index paths of the nodes of a tree, in
depth-first pre-order: the root has path `[]`, and the path of a
descendant lists the zero-based child indices taken from the root. -/
def nodePaths : LogicNode → List (List Nat)
  | .mk _ _ _ .none => [[]]
  | .mk _ _ _ (.some children) => [] :: pathsLoop children 0

/-- Index paths of the nodes of the subtrees of a child sequence, the
first child carrying index `i`. -/
def pathsLoop : ChildList → Nat → List (List Nat)
  | .nil, _ => []
  | .cons c rest, i => (nodePaths c).map (fun p => i :: p) ++ pathsLoop rest (i + 1)
end

/-- The id suffix assigned to the node at index path `p`, relative to a
starting suffix `sfx` (the root of one flattening pass has `sfx = "0"`):
each index is appended in decimal after an underscore, exactly as
`child_suffix = my_id_suffix + "_" + index` does in the source. -/
def encodePath (sfx : String) (p : List Nat) : String :=
  p.foldl (fun s i => s ++ "_" ++ Nat.repr i) sfx

/-- Structural induction over a bare `ChildList` (the motives of the two
other members of the mutual family are trivial). -/
theorem ChildList.list_ind (C : ChildList → Prop) (hnil : C .nil)
    (hcons : ∀ c rest, C rest → C (.cons c rest)) : ∀ l, C l :=
  @ChildList.rec (fun _ => True) (fun _ => True) C
    (fun _ _ _ _ _ => trivial) trivial (fun _ _ => trivial)
    hnil (fun c rest _ h => hcons c rest h)

/-- Simultaneous structural induction over `LogicNode` and `ChildList`:
proves a tree property `P` and a child-sequence property `C` together. -/
theorem LogicNode.mutual_ind (P : LogicNode → Prop) (C : ChildList → Prop)
    (hmk : ∀ ty rel tx ch, (∀ l, ch = OptChildren.some l → C l) → P (.mk ty rel tx ch))
    (hnil : C .nil)
    (hcons : ∀ c rest, P c → C rest → C (.cons c rest)) :
    (∀ n, P n) ∧ (∀ l, C l) := by
  refine ⟨?_, ?_⟩
  · exact @LogicNode.rec P (fun ch => ∀ l, ch = OptChildren.some l → C l) C
      (fun ty rel tx ch ih => hmk ty rel tx ch ih)
      (fun l h => nomatch h)
      (fun l hl l2 h => by cases h; exact hl)
      hnil (fun c rest hc hrest => hcons c rest hc hrest)
  · exact @ChildList.rec P (fun ch => ∀ l, ch = OptChildren.some l → C l) C
      (fun ty rel tx ch ih => hmk ty rel tx ch ih)
      (fun l h => nomatch h)
      (fun l hl l2 h => by cases h; exact hl)
      hnil (fun c rest hc hrest => hcons c rest hc hrest)

/-! ## Interface lemmas for the depth computation -/

/-- Unfolding of `get_tree_depth` phrased through the key accessors, in the
exact case order of the source: leaf test first, then the emptiness test on
the defaulted children, then the loop. -/
theorem get_tree_depth_eq (n : LogicNode) :
    get_tree_depth n =
      if n.type = some "leaf" then 1
      else if n.childrenD.isEmpty then 1
      else 1 + depth_loop 0 n.childrenD := by
  cases n with
  | mk ty rel tx ch =>
    cases ch <;>
      simp [get_tree_depth, LogicNode.type, LogicNode.childrenD, LogicNode.children,
        OptChildren.getD, ChildList.isEmpty]

theorem ite_gt_eq_max (a d : Nat) : (if d > a then d else a) = max a d := by
  rw [Nat.max_def]
  split <;> split <;> omega

/-- The running-maximum loop computes a left fold of `max` over the
children's depths. -/
theorem depth_loop_eq_foldl :
    ∀ (cs : ChildList) (acc : Nat),
      depth_loop acc cs = (cs.toList.map get_tree_depth).foldl max acc := by
  refine ChildList.list_ind
    (fun cs => ∀ acc, depth_loop acc cs = (cs.toList.map get_tree_depth).foldl max acc) ?_ ?_
  · intro acc
    simp [depth_loop, ChildList.toList]
  · intro c rest ih acc
    simp only [depth_loop, ChildList.toList, List.map_cons, List.foldl_cons]
    rw [ite_gt_eq_max] at *
    exact ih _

/-- Every tree has depth at least 1: each return path of `get_tree_depth`
yields either `1` or `1 + _`. -/
theorem one_le_get_tree_depth (n : LogicNode) : 1 ≤ get_tree_depth n := by
  cases n with
  | mk ty rel tx ch =>
    cases ch <;> (unfold get_tree_depth) <;> (repeat' split) <;> omega

/-! ## Frame property of the flattener -/

/-- Both flattening functions only append to the caller-supplied
accumulators: the run on arbitrary initial lists is the initial lists
followed by the run on empty lists. -/
theorem agraph_frame :
    (∀ (n : LogicNode) (ns : List VisualNode) (es : List VisualEdge)
        (pfx : String) (pid : Option String) (sfx : String),
      get_agraph_data n ns es pfx pid sfx
        = (ns ++ (get_agraph_data n [] [] pfx pid sfx).1,
           es ++ (get_agraph_data n [] [] pfx pid sfx).2)) ∧
    (∀ (cs : ChildList) (i : Nat) (ns : List VisualNode) (es : List VisualEdge)
        (pfx par sfx : String),
      agraph_loop cs i ns es pfx par sfx
        = (ns ++ (agraph_loop cs i [] [] pfx par sfx).1,
           es ++ (agraph_loop cs i [] [] pfx par sfx).2)) := by
  refine LogicNode.mutual_ind
    (fun n => ∀ ns es pfx pid sfx,
      get_agraph_data n ns es pfx pid sfx
        = (ns ++ (get_agraph_data n [] [] pfx pid sfx).1,
           es ++ (get_agraph_data n [] [] pfx pid sfx).2))
    (fun cs => ∀ i ns es pfx par sfx,
      agraph_loop cs i ns es pfx par sfx
        = (ns ++ (agraph_loop cs i [] [] pfx par sfx).1,
           es ++ (agraph_loop cs i [] [] pfx par sfx).2)) ?_ ?_ ?_
  · intro ty rel tx ch hch ns es pfx pid sfx
    cases ch with
    | none => simp [get_agraph_data]
    | some l =>
      have hQ := hch l rfl
      simp only [get_agraph_data, List.nil_append]
      rw [hQ 0 (ns ++ [style_node ty rel tx (pfx ++ "_" ++ sfx)])
            (es ++ parent_edges pid (pfx ++ "_" ++ sfx)) pfx (pfx ++ "_" ++ sfx) sfx,
          hQ 0 [style_node ty rel tx (pfx ++ "_" ++ sfx)]
            (parent_edges pid (pfx ++ "_" ++ sfx)) pfx (pfx ++ "_" ++ sfx) sfx]
      simp
  · intro i ns es pfx par sfx
    simp [agraph_loop]
  · intro c rest hc hrest i ns es pfx par sfx
    simp only [agraph_loop]
    rw [hc ns es pfx (Option.some par) (sfx ++ "_" ++ Nat.repr i)]
    simp only [Prod.fst, Prod.snd]
    rw [hrest (i + 1)
          (ns ++ (get_agraph_data c [] [] pfx (Option.some par) (sfx ++ "_" ++ Nat.repr i)).1)
          (es ++ (get_agraph_data c [] [] pfx (Option.some par) (sfx ++ "_" ++ Nat.repr i)).2)
          pfx par sfx,
        hrest (i + 1)
          (get_agraph_data c [] [] pfx (Option.some par) (sfx ++ "_" ++ Nat.repr i)).1
          (get_agraph_data c [] [] pfx (Option.some par) (sfx ++ "_" ++ Nat.repr i)).2
          pfx par sfx]
    simp

/-! ## Identifier characterization -/

/-- The styled node always carries the id it was given. -/
theorem style_node_id (ty rel tx : Option String) (u : String) :
    (style_node ty rel tx u).id = u := by
  simp only [style_node]
  split <;> rfl

theorem encodePath_nil (sfx : String) : encodePath sfx [] = sfx := rfl

theorem encodePath_cons (sfx : String) (i : Nat) (p : List Nat) :
    encodePath sfx (i :: p) = encodePath (sfx ++ "_" ++ Nat.repr i) p := rfl

/-- The ids of the nodes emitted by one flattening pass are exactly the
path encodings of the tree's node paths: `pfx ++ "_" ++ <suffix of path>`,
in depth-first pre-order. -/
theorem agraph_ids :
    (∀ (n : LogicNode) (pfx : String) (pid : Option String) (sfx : String),
      (get_agraph_data n [] [] pfx pid sfx).1.map VisualNode.id
        = (nodePaths n).map (fun p => pfx ++ "_" ++ encodePath sfx p)) ∧
    (∀ (cs : ChildList) (i : Nat) (pfx par sfx : String),
      (agraph_loop cs i [] [] pfx par sfx).1.map VisualNode.id
        = (pathsLoop cs i).map (fun p => pfx ++ "_" ++ encodePath sfx p)) := by
  refine LogicNode.mutual_ind
    (fun n => ∀ pfx pid sfx,
      (get_agraph_data n [] [] pfx pid sfx).1.map VisualNode.id
        = (nodePaths n).map (fun p => pfx ++ "_" ++ encodePath sfx p))
    (fun cs => ∀ i pfx par sfx,
      (agraph_loop cs i [] [] pfx par sfx).1.map VisualNode.id
        = (pathsLoop cs i).map (fun p => pfx ++ "_" ++ encodePath sfx p)) ?_ ?_ ?_
  · intro ty rel tx ch hch pfx pid sfx
    cases ch with
    | none =>
      simp [get_agraph_data, nodePaths, style_node_id, encodePath_nil]
    | some l =>
      have hQ := hch l rfl
      simp only [get_agraph_data, List.nil_append]
      rw [agraph_frame.2 l 0 [style_node ty rel tx (pfx ++ "_" ++ sfx)]
            (parent_edges pid (pfx ++ "_" ++ sfx)) pfx (pfx ++ "_" ++ sfx) sfx]
      simp [nodePaths, style_node_id, encodePath_nil, hQ 0 pfx (pfx ++ "_" ++ sfx) sfx]
  · intro i pfx par sfx
    simp [agraph_loop, pathsLoop]
  · intro c rest hc hrest i pfx par sfx
    simp only [agraph_loop, pathsLoop]
    rw [agraph_frame.2 rest (i + 1)
          (get_agraph_data c [] [] pfx (Option.some par) (sfx ++ "_" ++ Nat.repr i)).1
          (get_agraph_data c [] [] pfx (Option.some par) (sfx ++ "_" ++ Nat.repr i)).2
          pfx par sfx]
    simp only [List.map_append, List.map_map]
    rw [hc pfx (Option.some par) (sfx ++ "_" ++ Nat.repr i), hrest (i + 1) pfx par sfx]
    simp [Function.comp, encodePath_cons]

/-! ## Decimal representation facts

The id suffixes splice decimal renderings of child indices (Python
`f-string` of an `int`, embedded as `Nat.repr`) between underscores.  The
injectivity of the id scheme rests on three facts about `Nat.repr`:
it is nonempty, consists of digit characters only, and is injective.
They are proved through the reference function `natDigits` below. -/

/-- Reference decimal rendering: most significant digit first. -/
def natDigits (n : Nat) : List Char :=
  if h : n < 10 then [Nat.digitChar n]
  else natDigits (n / 10) ++ [Nat.digitChar (n % 10)]
decreasing_by
  exact Nat.div_lt_self (by omega) (by omega)

theorem digitChar_isDigit (k : Nat) (h : k < 10) : (Nat.digitChar k).isDigit = true := by
  interval_cases k <;> decide

/-- Numeric value of a digit character (inverse of `Nat.digitChar` below 10). -/
def digitVal (c : Char) : Nat := c.toNat - 48

/-- Parse a most-significant-first digit string back to a number. -/
def parseDigits (l : List Char) : Nat :=
  l.foldl (fun a c => 10 * a + digitVal c) 0

theorem digitVal_digitChar (k : Nat) (h : k < 10) : digitVal (Nat.digitChar k) = k := by
  interval_cases k <;> decide

theorem natDigits_lt10 (n : Nat) (h : n < 10) : natDigits n = [Nat.digitChar n] := by
  rw [natDigits, dif_pos h]

theorem natDigits_ge10 (n : Nat) (h : ¬ n < 10) :
    natDigits n = natDigits (n / 10) ++ [Nat.digitChar (n % 10)] := by
  rw [natDigits, dif_neg h]

theorem natDigits_ne_nil (n : Nat) : natDigits n ≠ [] := by
  by_cases h : n < 10
  · rw [natDigits_lt10 n h]
    simp
  · rw [natDigits_ge10 n h]
    simp

theorem natDigits_isDigit (n : Nat) : ∀ c ∈ natDigits n, c.isDigit = true := by
  induction n using Nat.strong_induction_on with
  | _ n ih =>
    by_cases h : n < 10
    · rw [natDigits_lt10 n h]
      simpa using digitChar_isDigit n h
    · rw [natDigits_ge10 n h]
      intro c hc
      rcases List.mem_append.1 hc with hc | hc
      · exact ih (n / 10) (Nat.div_lt_self (by omega) (by omega)) c hc
      · simp only [List.mem_singleton] at hc
        subst hc
        exact digitChar_isDigit (n % 10) (Nat.mod_lt n (by omega))

theorem parseDigits_natDigits (n : Nat) : parseDigits (natDigits n) = n := by
  induction n using Nat.strong_induction_on with
  | _ n ih =>
    by_cases h : n < 10
    · rw [natDigits_lt10 n h]
      simp [parseDigits, digitVal_digitChar n h]
    · rw [natDigits_ge10 n h]
      have hrec := ih (n / 10) (Nat.div_lt_self (by omega) (by omega))
      simp only [parseDigits, List.foldl_append, List.foldl_cons, List.foldl_nil]
      simp only [parseDigits] at hrec
      rw [hrec, digitVal_digitChar (n % 10) (Nat.mod_lt n (by omega))]
      omega

theorem toDigitsCore_eq_natDigits (n : Nat) :
    ∀ (fuel : Nat) (ds : List Char), n < fuel →
      Nat.toDigitsCore 10 fuel n ds = natDigits n ++ ds := by
  induction n using Nat.strong_induction_on with
  | _ n ih =>
    intro fuel ds hfuel
    cases fuel with
    | zero => omega
    | succ f =>
      rw [Nat.toDigitsCore]
      by_cases h10 : n / 10 = 0
      · have hn : n < 10 := by omega
        simp only [h10, if_pos rfl]
        rw [natDigits_lt10 n hn, Nat.mod_eq_of_lt hn]
        rfl
      · have hn : ¬ n < 10 := by omega
        simp only [if_neg h10]
        rw [ih (n / 10) (Nat.div_lt_self (by omega) (by omega)) f
              (Nat.digitChar (n % 10) :: ds) (by omega)]
        rw [natDigits_ge10 n hn]
        simp

theorem repr_data_eq_natDigits (n : Nat) : (Nat.repr n).data = natDigits n := by
  rw [Nat.repr, Nat.toDigits, toDigitsCore_eq_natDigits n (n + 1) [] (Nat.lt_succ_self n),
    List.append_nil]
  rfl

theorem repr_data_isDigit (n : Nat) : ∀ c ∈ (Nat.repr n).data, c.isDigit = true := by
  rw [repr_data_eq_natDigits]
  exact natDigits_isDigit n

theorem Nat_repr_injective (a b : Nat) (h : Nat.repr a = Nat.repr b) : a = b := by
  have hd : natDigits a = natDigits b := by
    rw [← repr_data_eq_natDigits, ← repr_data_eq_natDigits, h]
  have := congrArg parseDigits hd
  rwa [parseDigits_natDigits, parseDigits_natDigits] at this

/-! ## Injectivity of the path-suffix encoding -/

/-- Character-level view of the suffix appended after the starting suffix:
an underscore followed by the decimal index, for each step of the path. -/
def encTail : List Nat → List Char
  | [] => []
  | i :: p => '_' :: ((Nat.repr i).data ++ encTail p)

theorem underscore_data : ("_" : String).data = ['_'] := rfl

theorem encodePath_data (p : List Nat) :
    ∀ sfx : String, (encodePath sfx p).data = sfx.data ++ encTail p := by
  induction p with
  | nil =>
    intro sfx
    simp [encodePath_nil, encTail]
  | cons i p2 ih =>
    intro sfx
    rw [encodePath_cons, ih, encTail]
    simp [String.data_append, underscore_data]

theorem encTail_shape (p : List Nat) : encTail p = [] ∨ ∃ t, encTail p = '_' :: t := by
  cases p <;> simp [encTail]

/-- Cancellation of a leading digit block: if two digit-only blocks are
each followed by a tail that is empty or starts with an underscore, and
the concatenations agree, the blocks and the tails agree. -/
theorem digit_block_cancel :
    ∀ (a b t1 t2 : List Char),
      (∀ c ∈ a, c.isDigit = true) → (∀ c ∈ b, c.isDigit = true) →
      (t1 = [] ∨ ∃ r, t1 = '_' :: r) → (t2 = [] ∨ ∃ r, t2 = '_' :: r) →
      a ++ t1 = b ++ t2 → a = b ∧ t1 = t2 := by
  intro a
  induction a with
  | nil =>
    intro b t1 t2 _ hb ht1 _ heq
    cases b with
    | nil => exact ⟨rfl, heq⟩
    | cons d b2 =>
      exfalso
      simp only [List.nil_append, List.cons_append] at heq
      have hd : d.isDigit = true := hb d (by simp)
      rcases ht1 with h | ⟨r, h⟩ <;> rw [h] at heq
      · exact List.cons_ne_nil _ _ heq.symm
      · have : '_' = d := (List.cons.inj heq).1
        rw [← this] at hd
        simp at hd
  | cons x a2 ih =>
    intro b t1 t2 ha hb ht1 ht2 heq
    cases b with
    | nil =>
      exfalso
      simp only [List.nil_append, List.cons_append] at heq
      have hx : x.isDigit = true := ha x (by simp)
      rcases ht2 with h | ⟨r, h⟩ <;> rw [h] at heq
      · exact List.cons_ne_nil _ _ heq
      · have : x = '_' := (List.cons.inj heq).1
        rw [this] at hx
        simp at hx
    | cons y b2 =>
      simp only [List.cons_append, List.cons.injEq] at heq
      obtain ⟨hxy, heq2⟩ := heq
      obtain ⟨hab, ht⟩ := ih b2 t1 t2 (fun c hc => ha c (by simp [hc]))
        (fun c hc => hb c (by simp [hc])) ht1 ht2 heq2
      exact ⟨by rw [hxy, hab], ht⟩

theorem encTail_inj : ∀ p q : List Nat, encTail p = encTail q → p = q := by
  intro p
  induction p with
  | nil =>
    intro q h
    cases q with
    | nil => rfl
    | cons j q2 => simp [encTail] at h
  | cons i p2 ih =>
    intro q h
    cases q with
    | nil => simp [encTail] at h
    | cons j q2 =>
      simp only [encTail, List.cons.injEq, true_and] at h
      obtain ⟨hab, ht⟩ := digit_block_cancel _ _ _ _ (repr_data_isDigit i)
        (repr_data_isDigit j) (encTail_shape p2) (encTail_shape q2) h
      rw [Nat_repr_injective i j (String.ext hab), ih q2 ht]

/-- Injectivity of the full id assignment of one flattening pass: for a
fixed prefix and starting suffix, distinct index paths receive distinct
identifiers. -/
theorem id_of_path_injective (pfx sfx : String) :
    Function.Injective (fun p => pfx ++ "_" ++ encodePath sfx p) := by
  intro p q h
  have hd := congrArg String.data h
  simp only [String.data_append, encodePath_data, ← List.append_assoc] at hd
  exact encTail_inj p q (List.append_cancel_left hd)

/-! ## Distinctness of the emitted paths -/

/-- Every path produced for a child sequence starting at index `i` begins
with an index at least `i`. -/
theorem pathsLoop_shape :
    ∀ (cs : ChildList) (i : Nat) (p : List Nat), p ∈ pathsLoop cs i →
      ∃ j q, p = j :: q ∧ i ≤ j := by
  refine ChildList.list_ind
    (fun cs => ∀ i p, p ∈ pathsLoop cs i → ∃ j q, p = j :: q ∧ i ≤ j) ?_ ?_
  · intro i p hp
    simp [pathsLoop] at hp
  · intro c rest ih i p hp
    simp only [pathsLoop, List.mem_append, List.mem_map] at hp
    rcases hp with ⟨q, _, hq⟩ | hp
    · exact ⟨i, q, hq.symm, Nat.le_refl i⟩
    · obtain ⟨j, q, hjq, hj⟩ := ih (i + 1) p hp
      exact ⟨j, q, hjq, by omega⟩

/-- The index paths of one tree are pairwise distinct. -/
theorem nodePaths_nodup :
    (∀ n : LogicNode, (nodePaths n).Nodup) ∧
    (∀ cs : ChildList, ∀ i : Nat, (pathsLoop cs i).Nodup) := by
  refine LogicNode.mutual_ind (fun n => (nodePaths n).Nodup)
    (fun cs => ∀ i, (pathsLoop cs i).Nodup) ?_ ?_ ?_
  · intro ty rel tx ch hch
    cases ch with
    | none => simp [nodePaths]
    | some l =>
      have hQ := hch l rfl
      simp only [nodePaths, List.nodup_cons]
      refine ⟨fun hmem => ?_, hQ 0⟩
      obtain ⟨j, q, hjq, -⟩ := pathsLoop_shape l 0 [] hmem
      exact List.cons_ne_nil j q hjq.symm
  · intro i
    simp [pathsLoop]
  · intro c rest hc hrest i
    simp only [pathsLoop, List.nodup_append]
    refine ⟨List.Nodup.map (fun p q hpq => (List.cons.inj hpq).2) hc, hrest (i + 1), ?_⟩
    intro x hx hx2
    simp only [List.mem_map] at hx
    obtain ⟨q, -, hq⟩ := hx
    obtain ⟨j, q2, hjq, hj⟩ := pathsLoop_shape rest (i + 1) x hx2
    rw [← hq] at hjq
    have : i = j := (List.cons.inj hjq).1
    omega

/-! ## Node and edge counts, edge shape -/

theorem one_le_nodeCount (n : LogicNode) : 1 ≤ n.nodeCount := by
  cases n with
  | mk ty rel tx ch => cases ch <;> simp [LogicNode.nodeCount]

/-- A generated unique id is never the empty string (so it is always
Python-truthy as a `parent_id`). -/
theorem uid_ne_empty (pfx sfx : String) : pfx ++ "_" ++ sfx ≠ "" := by
  intro h
  have hd := congrArg String.data h
  simp [String.data_append, underscore_data] at hd

theorem parent_edges_some_length (par t : String) (h : par ≠ "") :
    (parent_edges (Option.some par) t).length = 1 := by
  simp [parent_edges, h]

/-- Counts of one flattening pass on empty accumulators: one visual node
per tree node, and one edge per tree node except that the top call emits
no edge for its root when `parent_id` is falsy. -/
theorem agraph_counts :
    (∀ (n : LogicNode) (pfx : String) (pid : Option String) (sfx : String),
      (get_agraph_data n [] [] pfx pid sfx).1.length = n.nodeCount ∧
      (get_agraph_data n [] [] pfx pid sfx).2.length
        = (parent_edges pid (pfx ++ "_" ++ sfx)).length + (n.nodeCount - 1)) ∧
    (∀ (cs : ChildList) (i : Nat) (pfx par sfx : String), par ≠ "" →
      (agraph_loop cs i [] [] pfx par sfx).1.length = cs.nodeCount ∧
      (agraph_loop cs i [] [] pfx par sfx).2.length = cs.nodeCount) := by
  refine LogicNode.mutual_ind
    (fun n => ∀ pfx pid sfx,
      (get_agraph_data n [] [] pfx pid sfx).1.length = n.nodeCount ∧
      (get_agraph_data n [] [] pfx pid sfx).2.length
        = (parent_edges pid (pfx ++ "_" ++ sfx)).length + (n.nodeCount - 1))
    (fun cs => ∀ i pfx par sfx, par ≠ "" →
      (agraph_loop cs i [] [] pfx par sfx).1.length = cs.nodeCount ∧
      (agraph_loop cs i [] [] pfx par sfx).2.length = cs.nodeCount) ?_ ?_ ?_
  · intro ty rel tx ch hch pfx pid sfx
    cases ch with
    | none => simp [get_agraph_data, LogicNode.nodeCount]
    | some l =>
      have hQ := hch l rfl 0 pfx (pfx ++ "_" ++ sfx) sfx (uid_ne_empty pfx sfx)
      simp only [get_agraph_data, List.nil_append]
      rw [agraph_frame.2 l 0 [style_node ty rel tx (pfx ++ "_" ++ sfx)]
            (parent_edges pid (pfx ++ "_" ++ sfx)) pfx (pfx ++ "_" ++ sfx) sfx]
      have h1 := one_le_nodeCount (LogicNode.mk ty rel tx (OptChildren.some l))
      simp only [LogicNode.nodeCount] at h1 ⊢
      simp [hQ.1, hQ.2]
      omega
  · intro i pfx par sfx hpar
    simp [agraph_loop, ChildList.nodeCount]
  · intro c rest hc hrest i pfx par sfx hpar
    have hC := hc pfx (Option.some par) (sfx ++ "_" ++ Nat.repr i)
    have hR := hrest (i + 1) pfx par sfx hpar
    simp only [agraph_loop]
    rw [agraph_frame.2 rest (i + 1)
          (get_agraph_data c [] [] pfx (Option.some par) (sfx ++ "_" ++ Nat.repr i)).1
          (get_agraph_data c [] [] pfx (Option.some par) (sfx ++ "_" ++ Nat.repr i)).2
          pfx par sfx]
    have h1 := one_le_nodeCount c
    simp only [ChildList.nodeCount, List.length_append]
    rw [hC.1, hC.2, hR.1, hR.2, parent_edges_some_length par _ hpar]
    omega

/-- Shape of every emitted edge: its source is a generated id of the same
pass (`pfx ++ "_" ++ s` for the parent's suffix `s`), its target is the
source extended by exactly one underscore-separated decimal child index,
and its styling is the uniform edge color. -/
theorem agraph_edge_shape :
    (∀ (n : LogicNode) (pfx : String) (pid : Option String) (sfx : String),
      (pid = Option.none ∨
        ∃ s i, pid = Option.some (pfx ++ "_" ++ s) ∧ sfx = s ++ "_" ++ Nat.repr i) →
      ∀ e ∈ (get_agraph_data n [] [] pfx pid sfx).2,
        (∃ s, e.source = pfx ++ "_" ++ s) ∧
        (∃ i, e.target = e.source ++ "_" ++ Nat.repr i) ∧ e.color = "#B0BEC5") ∧
    (∀ (cs : ChildList) (i : Nat) (pfx par sfx : String), par = pfx ++ "_" ++ sfx →
      ∀ e ∈ (agraph_loop cs i [] [] pfx par sfx).2,
        (∃ s, e.source = pfx ++ "_" ++ s) ∧
        (∃ i2, e.target = e.source ++ "_" ++ Nat.repr i2) ∧ e.color = "#B0BEC5") := by
  refine LogicNode.mutual_ind
    (fun n => ∀ pfx pid sfx,
      (pid = Option.none ∨
        ∃ s i, pid = Option.some (pfx ++ "_" ++ s) ∧ sfx = s ++ "_" ++ Nat.repr i) →
      ∀ e ∈ (get_agraph_data n [] [] pfx pid sfx).2,
        (∃ s, e.source = pfx ++ "_" ++ s) ∧
        (∃ i, e.target = e.source ++ "_" ++ Nat.repr i) ∧ e.color = "#B0BEC5")
    (fun cs => ∀ (i : Nat) (pfx par sfx : String), par = pfx ++ "_" ++ sfx →
      ∀ e ∈ (agraph_loop cs i [] [] pfx par sfx).2,
        (∃ s, e.source = pfx ++ "_" ++ s) ∧
        (∃ i2, e.target = e.source ++ "_" ++ Nat.repr i2) ∧ e.color = "#B0BEC5") ?_ ?_ ?_
  · intro ty rel tx ch hch pfx pid sfx hpid e he
    have hpe : ∀ e2 ∈ parent_edges pid (pfx ++ "_" ++ sfx),
        (∃ s, e2.source = pfx ++ "_" ++ s) ∧
        (∃ i, e2.target = e2.source ++ "_" ++ Nat.repr i) ∧ e2.color = "#B0BEC5" := by
      intro e2 he2
      rcases hpid with h | ⟨s, i, hs, hsfx⟩
      · rw [h] at he2
        simp [parent_edges] at he2
      · rw [hs] at he2
        rw [parent_edges, if_neg (uid_ne_empty pfx s)] at he2
        simp only [List.mem_singleton] at he2
        subst he2
        refine ⟨⟨s, rfl⟩, ⟨i, ?_⟩, rfl⟩
        simp only [hsfx]
        simp [String.append_assoc]
    cases ch with
    | none =>
      simp only [get_agraph_data, List.nil_append] at he
      exact hpe e he
    | some l =>
      have hQ := hch l rfl 0 pfx (pfx ++ "_" ++ sfx) sfx rfl
      simp only [get_agraph_data, List.nil_append] at he
      rw [agraph_frame.2 l 0 [style_node ty rel tx (pfx ++ "_" ++ sfx)]
            (parent_edges pid (pfx ++ "_" ++ sfx)) pfx (pfx ++ "_" ++ sfx) sfx] at he
      simp only [List.mem_append] at he
      rcases he with he | he
      · exact hpe e he
      · exact hQ e he
  · intro i pfx par sfx hpar e he
    simp [agraph_loop] at he
  · intro c rest hc hrest i pfx par sfx hpar e he
    simp only [agraph_loop] at he
    rw [agraph_frame.2 rest (i + 1)
          (get_agraph_data c [] [] pfx (Option.some par) (sfx ++ "_" ++ Nat.repr i)).1
          (get_agraph_data c [] [] pfx (Option.some par) (sfx ++ "_" ++ Nat.repr i)).2
          pfx par sfx] at he
    simp only [List.mem_append] at he
    rcases he with he | he
    · exact hc pfx (Option.some par) (sfx ++ "_" ++ Nat.repr i)
        (Or.inr ⟨sfx, i, by rw [hpar], rfl⟩) e he
    · exact hrest (i + 1) pfx par sfx hpar e he

/-! ## Claims -/

/-- C1: for every `LogicNode` tree, `get_tree_depth` satisfies the spec's
recursion: a node whose `type` equals `"leaf"` yields 1 unconditionally
(children ignored); otherwise an empty (defaulted) children sequence
yields 1; otherwise 1 plus the maximum of `get_tree_depth` over the
children (the left fold of `max` from 0, which is that maximum). -/
theorem C1_get_tree_depth_spec (n : LogicNode) :
    (n.type = some "leaf" → get_tree_depth n = 1) ∧
    (n.type ≠ some "leaf" → n.childrenD.isEmpty = true → get_tree_depth n = 1) ∧
    (n.type ≠ some "leaf" → n.childrenD.isEmpty = false →
      get_tree_depth n = 1 + (n.childrenD.toList.map get_tree_depth).foldl max 0) := by
  rw [get_tree_depth_eq]
  refine ⟨fun h => by simp [h], fun h1 h2 => by simp [h1, h2], fun h1 h2 => ?_⟩
  have h2x : ¬ (n.childrenD.isEmpty = true) := by simp [h2]
  rw [if_neg h1, if_neg h2x, depth_loop_eq_foldl]

/-- Witness for C1 at a concrete internal node with one leaf child. -/
theorem C1_get_tree_depth_spec_witness :
    (LogicNode.mk (some "span") Option.none Option.none
        (.some (.cons (.mk (some "leaf") Option.none Option.none .none) .nil))).type
      ≠ some "leaf" ∧
    (LogicNode.mk (some "span") Option.none Option.none
        (.some (.cons (.mk (some "leaf") Option.none Option.none .none) .nil))).childrenD.isEmpty
      = false ∧
    get_tree_depth (LogicNode.mk (some "span") Option.none Option.none
        (.some (.cons (.mk (some "leaf") Option.none Option.none .none) .nil)))
      = 1 + (((LogicNode.mk (some "span") Option.none Option.none
          (.some (.cons (.mk (some "leaf") Option.none Option.none .none) .nil))).childrenD.toList.map
            get_tree_depth).foldl max 0) :=
  ⟨by decide, by decide,
    (C1_get_tree_depth_spec _).2.2 (by decide) (by decide)⟩

/-- C10: `get_agraph_data` only appends to the caller-supplied
accumulators: for every tree, prefix, parent id and suffix, the result on
arbitrary initial lists is those lists unchanged, in order, followed by
exactly the output of the run on empty lists. -/
theorem C10_accumulators_only_appended (n : LogicNode) (ns : List VisualNode)
    (es : List VisualEdge) (pfx : String) (pid : Option String) (sfx : String) :
    get_agraph_data n ns es pfx pid sfx
      = (ns ++ (get_agraph_data n [] [] pfx pid sfx).1,
         es ++ (get_agraph_data n [] [] pfx pid sfx).2) :=
  agraph_frame.1 n ns es pfx pid sfx

/-- C8: every tree has depth at least 1, so when the reference depth was
computed by `get_tree_depth` the guard `if depth_ref > 0` always takes the
positive branch and the defensive `match_score = 0` branch is
unreachable. -/
theorem C8_guard_unreachable (n : LogicNode) (c : Nat) :
    1 ≤ get_tree_depth n ∧
    match_score c (get_tree_depth n) = min 100 (c * 100 / get_tree_depth n) := by
  refine ⟨one_le_get_tree_depth n, ?_⟩
  rw [match_score, if_pos (by have := one_le_get_tree_depth n; omega)]

/-- C3: the ids of one flattening pass are the prefix followed by the
underscore-joined zero-based index path from the root (root suffix "0"),
and this assignment is injective over the nodes of the tree: the id list
has no duplicate. -/
theorem C3_ids_pairwise_distinct (n : LogicNode) (pfx : String) :
    (get_agraph_data n [] [] pfx Option.none "0").1.map VisualNode.id
      = (nodePaths n).map (fun p => pfx ++ "_" ++ encodePath "0" p) ∧
    ((get_agraph_data n [] [] pfx Option.none "0").1.map VisualNode.id).Nodup := by
  refine ⟨agraph_ids.1 n pfx Option.none "0", ?_⟩
  rw [agraph_ids.1 n pfx Option.none "0"]
  exact List.Nodup.map (id_of_path_injective pfx "0") (nodePaths_nodup.1 n)

/-- C4: one flattening pass emits exactly one visual node per tree node
and exactly one edge per non-root node (edge count = node count − 1), and
every edge runs from the parent's id to the child's id: its source is a
generated id of the pass and its target is that source extended by exactly
one underscore-separated child index. -/
theorem C4_node_edge_counts (n : LogicNode) (pfx : String) :
    (get_agraph_data n [] [] pfx Option.none "0").1.length = n.nodeCount ∧
    (get_agraph_data n [] [] pfx Option.none "0").2.length = n.nodeCount - 1 ∧
    ∀ e ∈ (get_agraph_data n [] [] pfx Option.none "0").2,
      (∃ s, e.source = pfx ++ "_" ++ s) ∧
      (∃ i, e.target = e.source ++ "_" ++ Nat.repr i) ∧ e.color = "#B0BEC5" := by
  obtain ⟨h1, h2⟩ := agraph_counts.1 n pfx Option.none "0"
  refine ⟨h1, ?_, agraph_edge_shape.1 n pfx Option.none "0" (Or.inl rfl)⟩
  rw [h2]
  simp [parent_edges]

/-- Witness for C4 at a two-node tree: the unique edge `x_0 → x_0_0`. -/
theorem C4_node_edge_counts_witness :
    (get_agraph_data (.mk (some "span") Option.none Option.none
        (.some (.cons (.mk (some "leaf") Option.none Option.none .none) .nil)))
        [] [] "x" Option.none "0").1.length
      = (LogicNode.mk (some "span") Option.none Option.none
          (.some (.cons (.mk (some "leaf") Option.none Option.none .none) .nil))).nodeCount ∧
    (∃ s, ({ source := "x_0", target := "x_0_0", color := "#B0BEC5" } : VisualEdge).source
        = "x" ++ "_" ++ s) ∧
    (∃ i, ({ source := "x_0", target := "x_0_0", color := "#B0BEC5" } : VisualEdge).target
        = ({ source := "x_0", target := "x_0_0", color := "#B0BEC5" } : VisualEdge).source
          ++ "_" ++ Nat.repr i) :=
  ⟨(C4_node_edge_counts (.mk (some "span") Option.none Option.none
      (.some (.cons (.mk (some "leaf") Option.none Option.none .none) .nil))) "x").1,
   ((C4_node_edge_counts (.mk (some "span") Option.none Option.none
      (.some (.cons (.mk (some "leaf") Option.none Option.none .none) .nil))) "x").2.2
      { source := "x_0", target := "x_0_0", color := "#B0BEC5" } (by decide)).1,
   ((C4_node_edge_counts (.mk (some "span") Option.none Option.none
      (.some (.cons (.mk (some "leaf") Option.none Option.none .none) .nil))) "x").2.2
      { source := "x_0", target := "x_0_0", color := "#B0BEC5" } (by decide)).2.1⟩

/-- C2 (counterexample): with the distinct prefixes `"x"` and `"x_0"`, a
two-node tree flattened under `"x"` and a one-node tree flattened under
`"x_0"` both produce the identifier `"x_0_0"`, so distinctness of the two
prefixes alone does not make the id sets disjoint. -/
theorem C2_counterexample :
    ("x" : String) ≠ "x_0" ∧
    "x_0_0" ∈ (get_agraph_data (.mk (some "span") Option.none Option.none
        (.some (.cons (.mk (some "leaf") Option.none Option.none .none) .nil)))
        [] [] "x" Option.none "0").1.map VisualNode.id ∧
    "x_0_0" ∈ (get_agraph_data (.mk (some "leaf") Option.none Option.none .none)
        [] [] "x_0" Option.none "0").1.map VisualNode.id :=
  ⟨by decide, by decide, by decide⟩

/-- C2 (amended): two flattening passes over any two trees with prefixes
`p` and `q` produce disjoint id sets provided neither prefix is a string
prefix of the other (as with the prefixes `"ref"` and `"comp"` used by the
caller); mere distinctness is not enough. -/
theorem C2_prefix_free_disjoint (t1 t2 : LogicNode) (p q : String)
    (hp : ¬ p.data <+: q.data) (hq : ¬ q.data <+: p.data) :
    ∀ s, s ∈ (get_agraph_data t1 [] [] p Option.none "0").1.map VisualNode.id →
      s ∉ (get_agraph_data t2 [] [] q Option.none "0").1.map VisualNode.id := by
  intro s hs1 hs2
  rw [agraph_ids.1] at hs1 hs2
  obtain ⟨p1, -, h1⟩ := List.mem_map.1 hs1
  obtain ⟨p2, -, h2⟩ := List.mem_map.1 hs2
  have heq : p ++ "_" ++ encodePath "0" p1 = q ++ "_" ++ encodePath "0" p2 := by
    rw [h1, h2]
  have hd := congrArg String.data heq
  simp only [String.data_append, List.append_assoc] at hd
  have hpp : p.data <+: p.data ++ (("_" : String).data ++ (encodePath "0" p1).data) :=
    List.prefix_append _ _
  have hqq : q.data <+: q.data ++ (("_" : String).data ++ (encodePath "0" p2).data) :=
    List.prefix_append _ _
  rw [hd] at hpp
  rcases List.prefix_or_prefix_of_prefix hpp hqq with h | h
  · exact hp h
  · exact hq h

/-- Witness for C2 (amended) with the caller's prefixes `"ref"` and
`"comp"` on two one-node trees. -/
theorem C2_prefix_free_disjoint_witness :
    ¬ ("ref" : String).data <+: ("comp" : String).data ∧
    ¬ ("comp" : String).data <+: ("ref" : String).data ∧
    "ref_0" ∉ (get_agraph_data (.mk (some "leaf") Option.none Option.none .none)
        [] [] "comp" Option.none "0").1.map VisualNode.id :=
  ⟨by decide, by decide,
    C2_prefix_free_disjoint (.mk (some "leaf") Option.none Option.none .none)
      (.mk (some "leaf") Option.none Option.none .none) "ref" "comp"
      (by decide) (by decide) "ref_0" (by decide)⟩

/-- C5: a node tagged `"leaf"` that nevertheless declares a non-empty
children sequence has depth 1 (its children contribute nothing to the
depth), while the flattener still emits one visual node per node of the
whole subtree — at least two — and one edge per non-root node: depth and
flattening treat such children asymmetrically. -/
theorem C5_leaf_children_asymmetry (n : LogicNode) (pfx : String)
    (hleaf : n.type = some "leaf") (hne : n.childrenD.isEmpty = false) :
    get_tree_depth n = 1 ∧
    (get_agraph_data n [] [] pfx Option.none "0").1.length = n.nodeCount ∧
    (get_agraph_data n [] [] pfx Option.none "0").2.length = n.nodeCount - 1 ∧
    2 ≤ n.nodeCount := by
  obtain ⟨h1, h2⟩ := agraph_counts.1 n pfx Option.none "0"
  refine ⟨?_, h1, ?_, ?_⟩
  · rw [get_tree_depth_eq, if_pos hleaf]
  · rw [h2]
    simp [parent_edges]
  · cases n with
    | mk ty rel tx ch =>
      cases ch with
      | none => simp [LogicNode.childrenD, LogicNode.children, OptChildren.getD,
          ChildList.isEmpty] at hne
      | some l =>
        cases l with
        | nil => simp [LogicNode.childrenD, LogicNode.children, OptChildren.getD,
            ChildList.isEmpty] at hne
        | cons c rest =>
          have := one_le_nodeCount c
          simp only [LogicNode.nodeCount, ChildList.nodeCount]
          omega

/-- Witness for C5 at a leaf node declaring one child. -/
theorem C5_leaf_children_asymmetry_witness :
    (LogicNode.mk (some "leaf") Option.none (some "t")
        (.some (.cons (.mk (some "leaf") Option.none Option.none .none) .nil))).type
      = some "leaf" ∧
    (LogicNode.mk (some "leaf") Option.none (some "t")
        (.some (.cons (.mk (some "leaf") Option.none Option.none .none) .nil))).childrenD.isEmpty
      = false ∧
    get_tree_depth (LogicNode.mk (some "leaf") Option.none (some "t")
        (.some (.cons (.mk (some "leaf") Option.none Option.none .none) .nil))) = 1 ∧
    2 ≤ (LogicNode.mk (some "leaf") Option.none (some "t")
        (.some (.cons (.mk (some "leaf") Option.none Option.none .none) .nil))).nodeCount :=
  ⟨by decide, by decide,
    (C5_leaf_children_asymmetry _ "x" (by decide) (by decide)).1,
    (C5_leaf_children_asymmetry _ "x" (by decide) (by decide)).2.2.2⟩

/-- C6: the permissive-defaulting policy.  (Both embedded functions are
total Lean functions, so "never raises" holds by construction; the
content verified here is the defaulting itself.)  A node missing both
`type` and `children` has depth 1; a missing `type` behaves in the depth
computation exactly like the non-leaf sentinel `"span"`; and flattening a
node missing all four keys silently defaults them, emitting the internal
styling with relation defaulted to `"span"` (upper-cased `"SPAN"`), no
text, no children, and no edge. -/
theorem C6_permissive_defaulting (rel tx : Option String) (pfx : String) :
    get_tree_depth (.mk Option.none rel tx .none) = 1 ∧
    (∀ ch : OptChildren,
      get_tree_depth (.mk Option.none rel tx ch)
        = get_tree_depth (.mk (some "span") rel tx ch)) ∧
    get_agraph_data (.mk Option.none Option.none Option.none .none) [] [] pfx Option.none "0"
      = ([{ id := pfx ++ "_" ++ "0", label := "SPAN", size := 15, color := "#2962FF",
            title := "SPAN" }], []) := by
  have h1 : py_upper "span" = "SPAN" := by decide
  have h2 : ∀ ch : OptChildren,
      get_tree_depth (.mk Option.none rel tx ch) = get_tree_depth (.mk (some "span") rel tx ch) := by
    intro ch
    rw [get_tree_depth_eq, get_tree_depth_eq]
    simp [LogicNode.type, LogicNode.childrenD, LogicNode.children]
  refine ⟨?_, h2, ?_⟩
  · rw [get_tree_depth_eq]
    simp [LogicNode.type, LogicNode.childrenD, LogicNode.children, OptChildren.getD,
      ChildList.isEmpty]
  · simp [get_agraph_data, style_node, parent_edges, h1]

/-- The styled node's tooltip, in either branch, is the node's text
defaulted to the upper-cased relation. -/
theorem style_node_title (ty rel tx : Option String) (u : String) :
    (style_node ty rel tx u).title = tx.getD (py_upper (rel.getD "span")) := by
  simp only [style_node]
  split <;> rfl

theorem style_node_label_leaf (ty rel tx : Option String) (u : String)
    (h : ty.getD "span" = "leaf") :
    (style_node ty rel tx u).label
      = if (tx.getD "").length > 15 then (tx.getD "").take 15 ++ "..." else tx.getD "" := by
  simp only [style_node]
  rw [if_pos h]

theorem style_node_label_not_leaf (ty rel tx : Option String) (u : String)
    (h : ¬ ty.getD "span" = "leaf") :
    (style_node ty rel tx u).label = py_upper (rel.getD "span") := by
  simp only [style_node]
  rw [if_neg h]

/-- C9 (counterexample): for the internal node
`{type: "span", relation: "cause"}` with no `text`, the emitted tooltip is
the upper-cased `"CAUSE"`, not the verbatim relation `"cause"` that the
claim's tooltip fallback states. -/
theorem C9_counterexample :
    (get_agraph_data (.mk (some "span") (some "cause") Option.none .none)
        [] [] "x" Option.none "0").1.map VisualNode.title = ["CAUSE"] ∧
    ("CAUSE" : String) ≠ "cause" :=
  ⟨by decide, by decide⟩

/-- C9 (amended): the first visual node emitted for a node is styled per
the source: a leaf-typed node's label is its text truncated to 15
characters plus an ellipsis when longer (else verbatim), an internal
node's label is its relation (defaulted to `"span"`) upper-cased, and the
tooltip of either kind is its text when present, else the upper-cased
defaulted relation (not the verbatim relation). -/
theorem C9_styling (n : LogicNode) (pfx : String) (pid : Option String) (sfx : String) :
    ∃ v rest, (get_agraph_data n [] [] pfx pid sfx).1 = v :: rest ∧
      v.id = pfx ++ "_" ++ sfx ∧
      (n.type.getD "span" = "leaf" →
        v.label = if (n.text.getD "").length > 15
                  then (n.text.getD "").take 15 ++ "..." else n.text.getD "") ∧
      (n.type.getD "span" ≠ "leaf" → v.label = py_upper (n.relation.getD "span")) ∧
      v.title = n.text.getD (py_upper (n.relation.getD "span")) := by
  cases n with
  | mk ty rel tx ch =>
    simp only [LogicNode.type, LogicNode.text, LogicNode.relation]
    cases ch with
    | none =>
      refine ⟨style_node ty rel tx (pfx ++ "_" ++ sfx), [], ?_, style_node_id ty rel tx _,
        fun h => ?_, fun h => ?_, style_node_title ty rel tx _⟩
      · simp [get_agraph_data]
      · exact style_node_label_leaf ty rel tx _ h
      · exact style_node_label_not_leaf ty rel tx _ h
    | some l =>
      refine ⟨style_node ty rel tx (pfx ++ "_" ++ sfx),
        (agraph_loop l 0 [] [] pfx (pfx ++ "_" ++ sfx) sfx).1, ?_,
        style_node_id ty rel tx _, fun h => ?_, fun h => ?_, style_node_title ty rel tx _⟩
      · simp only [get_agraph_data, List.nil_append]
        rw [agraph_frame.2 l 0 [style_node ty rel tx (pfx ++ "_" ++ sfx)]
              (parent_edges pid (pfx ++ "_" ++ sfx)) pfx (pfx ++ "_" ++ sfx) sfx]
        simp
      · exact style_node_label_leaf ty rel tx _ h
      · exact style_node_label_not_leaf ty rel tx _ h

/-- Witness for C9 (amended) at a leaf with a short text and at the
internal-node label branch. -/
theorem C9_styling_witness :
    ∃ v rest,
      (get_agraph_data (.mk (some "leaf") (some "cause") (some "hi") .none)
          [] [] "x" Option.none "0").1 = v :: rest ∧
      v.label = "hi" ∧ v.title = "hi" := by
  obtain ⟨v, rest, h1, -, h3, -, h5⟩ :=
    C9_styling (.mk (some "leaf") (some "cause") (some "hi") .none) "x" Option.none "0"
  refine ⟨v, rest, h1, ?_, ?_⟩
  · rw [h3 (by decide)]
    decide
  · rw [h5]
    decide
